import Mathlib

/-!
Shallow embedding of the red editor core: the buffer data model and
cursor movement (buf.rs), the editor controller with its viewport
anchor and draw routine (ed.rs), and the window coordinate
translation (scr.rs).  Lines are lists of characters; fatal contract
violations (Rust panics, checked arithmetic underflow and failed
integer narrowing) are embedded as Option results, with none marking
the panic.
-/

/-- A cursor into a buffer: column and row, as in buf.rs BufCursor. -/
structure BufCursor where
  col : Nat
  row : Nat
deriving DecidableEq, Repr

/-- A buffer is an ordered sequence of lines; a line is a sequence of
single-width character cells (buf.rs Buffer, with Line = String read
bytewise). -/
abbrev Buffer := List (List Char)

/-- Number of lines of the buffer (buf.rs Buffer.height). -/
def Buffer.height (b : Buffer) : Nat := b.length

/-- Length of line row (buf.rs Buffer.width): 0 at the virtual
one-past-end row, a contract violation (none) past it. -/
def Buffer.width (b : Buffer) (row : Nat) : Option Nat :=
  if row = b.height then some 0
  else if row > b.height then none
  else (b[row]?).map List.length

/-- Total version of Buffer.width used to state validity bounds;
agrees with Buffer.width whenever the latter is defined. -/
def Buffer.widthD (b : Buffer) (row : Nat) : Nat := (b.width row).getD 0

/-- Read-only view of line row (buf.rs Buffer.line); panics (none)
when the row does not exist. -/
def Buffer.line (b : Buffer) (row : Nat) : Option (List Char) := b[row]?

/-- The character under the cursor (buf.rs Buffer.char). -/
def Buffer.char (b : Buffer) (cur : BufCursor) : Option Char :=
  if cur.row ≥ b.height then none
  else (b.width cur.row).bind fun w =>
    if cur.col ≥ w then none
    else (b[cur.row]?).bind fun l => l[cur.col]?

/-- Insert a character under the cursor (buf.rs Buffer.insert_at).
Inserting one line past the end appends a new empty line first. -/
def Buffer.insert_at (b : Buffer) (ch : Char) (cur : BufCursor) : Option Buffer :=
  if cur.row > b.height then none
  else (b.width cur.row).bind fun w =>
    if cur.col > w then none
    else
      let b1 := if cur.row = b.height then b ++ [[]] else b
      (b1[cur.row]?).map fun l => b1.set cur.row (l.insertIdx cur.col ch)

/-- Delete the character just before the cursor (buf.rs
Buffer.delete_before). -/
def Buffer.delete_before (b : Buffer) (cur : BufCursor) : Option Buffer :=
  if cur.col = 0 then none
  else if cur.row ≥ b.height then none
  else (b.width cur.row).bind fun w =>
    if cur.col > w then none
    else (b[cur.row]?).map fun l => b.set cur.row (l.eraseIdx (cur.col - 1))

/-- Remove the line after the cursor row and append its contents to
the cursor row (buf.rs Buffer.merge_next_line_up). -/
def Buffer.merge_next_line_up (b : Buffer) (cur : BufCursor) : Option Buffer :=
  if cur.row + 1 ≥ b.height then none
  else (b[cur.row + 1]?).bind fun l =>
    let b1 := b.eraseIdx (cur.row + 1)
    (b1[cur.row]?).map fun cl => b1.set cur.row (cl ++ l)

/-- Split the cursor row at the cursor column; the suffix becomes a
new line below (buf.rs Buffer.break_line_at).  At the virtual
one-past-end row it just appends an empty line. -/
def Buffer.break_line_at (b : Buffer) (cur : BufCursor) : Option Buffer :=
  if cur.row > b.height then none
  else (b.width cur.row).bind fun w =>
    if cur.col > w then none
    else if cur.row = b.height then some (b ++ [[]])
    else (b[cur.row]?).map fun l =>
      (b.set cur.row (l.take cur.col)).insertIdx (cur.row + 1) (l.drop cur.col)

/-- Clamp the column to the width of the current row (buf.rs
BufCursor.trim_cursor_to_end_of_line). -/
def BufCursor.trim_cursor_to_end_of_line (cur : BufCursor) (buf : Buffer) : Option BufCursor :=
  (buf.width cur.row).map fun w => if cur.col > w then { cur with col := w } else cur

/-- Move right, wrapping to the start of the next line at end of line
(buf.rs BufCursor.move_right). -/
def BufCursor.move_right (cur : BufCursor) (buf : Buffer) : Option BufCursor :=
  if cur.row < buf.height then
    (buf.width cur.row).map fun w =>
      if cur.col < w then { cur with col := cur.col + 1 }
      else { col := 0, row := cur.row + 1 }
  else some cur

/-- Move left, wrapping to the end of the previous line at start of
line (buf.rs BufCursor.move_left). -/
def BufCursor.move_left (cur : BufCursor) (buf : Buffer) : Option BufCursor :=
  if cur.col > 0 then some { cur with col := cur.col - 1 }
  else if cur.row > 0 then
    (buf.width (cur.row - 1)).map fun w => { col := w, row := cur.row - 1 }
  else some cur

/-- Move up one row, clamping the column (buf.rs BufCursor.move_up). -/
def BufCursor.move_up (cur : BufCursor) (buf : Buffer) : Option BufCursor :=
  BufCursor.trim_cursor_to_end_of_line
    (if cur.row > 0 then { cur with row := cur.row - 1 } else cur) buf

/-- Move down one row, clamping the column (buf.rs
BufCursor.move_down). -/
def BufCursor.move_down (cur : BufCursor) (buf : Buffer) : Option BufCursor :=
  BufCursor.trim_cursor_to_end_of_line
    (if cur.row < buf.height then { cur with row := cur.row + 1 } else cur) buf

/-- Move to column 0 of the current row (buf.rs
BufCursor.move_to_start_of_line). -/
def BufCursor.move_to_start_of_line (cur : BufCursor) (_buf : Buffer) : Option BufCursor :=
  some { cur with col := 0 }

/-- Move to the end of the current row (buf.rs
BufCursor.move_to_end_of_line). -/
def BufCursor.move_to_end_of_line (cur : BufCursor) (buf : Buffer) : Option BufCursor :=
  (buf.width cur.row).map fun w => { cur with col := w }

/-- Move up, then to end of line (buf.rs
BufCursor.move_to_end_of_prev_line). -/
def BufCursor.move_to_end_of_prev_line (cur : BufCursor) (buf : Buffer) : Option BufCursor :=
  (cur.move_up buf).bind fun c => c.move_to_end_of_line buf

/-- Move down, then to start of line (buf.rs
BufCursor.move_to_start_of_next_line). -/
def BufCursor.move_to_start_of_next_line (cur : BufCursor) (buf : Buffer) : Option BufCursor :=
  (cur.move_down buf).bind fun c => c.move_to_start_of_line buf

/-- The validity contract for a cursor over a buffer, from the spec
of the data model: row at most height, column at most the width of
the row, and column 0 on the virtual one-past-end row. -/
def BufCursor.Valid (buf : Buffer) (cur : BufCursor) : Prop :=
  cur.row ≤ buf.height ∧ cur.col ≤ buf.widthD cur.row ∧
    (cur.row = buf.height → cur.col = 0)

instance (buf : Buffer) (cur : BufCursor) : Decidable (cur.Valid buf) := by
  unfold BufCursor.Valid; infer_instance

/-- An absolute or window-local screen coordinate (scr.rs Position);
the fields are u16 in the source. -/
structure Position where
  row : Nat
  col : Nat
deriving DecidableEq, Repr

/-- Componentwise position addition (scr.rs impl Add for Position);
u16 wrapping arithmetic is taken modulo 2 ^ 16. -/
def Position.add (p q : Position) : Position :=
  { row := (p.row + q.row) % 65536, col := (p.col + q.col) % 65536 }

/-- A window or screen extent in rows and columns (scr.rs Size). -/
structure Size where
  rows : Nat
  cols : Nat
deriving DecidableEq, Repr

/-- A rectangular region claimed on a screen (scr.rs Window): its
screen-absolute origin and its size. -/
structure Window where
  position : Position
  size : Size
deriving DecidableEq, Repr

/-- A window write delegates to the screen at the window origin plus
the local position (scr.rs Window.put_at); the result records the
single screen call (text, absolute position) that is issued. -/
def Window.put_at (w : Window) (s : List Char) (position : Position) : List Char × Position :=
  (s, w.position.add position)

/-- Decoded key events handled by the controller (the relevant
variants of termion Key; Other stands for every ignored variant). -/
inductive Key where
  | Left : Key
  | Right : Key
  | Up : Key
  | Down : Key
  | Char : Char → Key
  | Backspace : Key
  | Other : Key
deriving DecidableEq, Repr

/-- The editor controller state (ed.rs BufEditor): the editing cursor
and the viewport anchor. -/
structure BufEditor where
  editor : BufCursor
  anchor : BufCursor
deriving DecidableEq, Repr

/-- Recompute the anchor so the editing cursor stays visible (ed.rs
BufEditor.update_anchor).  The checked subtractions anchor + cols - 1
and anchor + rows - 1 underflow (none) when the size is zero. -/
def BufEditor.update_anchor (ed : BufEditor) (size : Size) : Option BufEditor :=
  let e := ed.editor
  let c1 := if e.col < ed.anchor.col then e.col else ed.anchor.col
  if c1 + size.cols = 0 then none else
  let c2 := if e.col > c1 + size.cols - 1 then e.col - size.cols + 1 else c1
  let r1 := if e.row < ed.anchor.row then e.row else ed.anchor.row
  if r1 + size.rows = 0 then none else
  let r2 := if e.row > r1 + size.rows - 1 then e.row - size.rows + 1 else r1
  some { ed with anchor := { col := c2, row := r2 } }

/-- Dispatch one key event (ed.rs BufEditor.handle_key): mutate the
buffer and the editing cursor according to the key, then recompute
the anchor. -/
def BufEditor.handle_key (ed : BufEditor) (b : Buffer) (size : Size) (key : Key) :
    Option (BufEditor × Buffer) :=
  let step : Option (BufEditor × Buffer) :=
    match key with
    | Key.Left => (ed.editor.move_left b).map fun e => ({ ed with editor := e }, b)
    | Key.Right => (ed.editor.move_right b).map fun e => ({ ed with editor := e }, b)
    | Key.Up => (ed.editor.move_up b).map fun e => ({ ed with editor := e }, b)
    | Key.Down => (ed.editor.move_down b).map fun e => ({ ed with editor := e }, b)
    | Key.Char ch =>
      if ch = '\n' then
        (b.break_line_at ed.editor).bind fun b1 =>
          (ed.editor.move_to_start_of_next_line b1).map fun e => ({ ed with editor := e }, b1)
      else
        (b.insert_at ch ed.editor).bind fun b1 =>
          (ed.editor.move_right b1).map fun e => ({ ed with editor := e }, b1)
    | Key.Backspace =>
      if ed.editor.col > 0 then
        (b.delete_before ed.editor).bind fun b1 =>
          (ed.editor.move_left b1).map fun e => ({ ed with editor := e }, b1)
      else if ed.editor.row > 0 then
        (ed.editor.move_to_end_of_prev_line b).bind fun e =>
          (b.merge_next_line_up e).map fun b1 => ({ ed with editor := e }, b1)
      else some (ed, b)
    | Key.Other => some (ed, b)
  step.bind fun s => (s.1.update_anchor size).map fun ed2 => (ed2, s.2)

/-- The range of buffer rows the draw loop visits (ed.rs
BufEditor.line_range), as start and length; the checked subtraction
height - anchor.row underflows (none) past the end of the buffer. -/
def BufEditor.line_range (ed : BufEditor) (b : Buffer) (size : Size) : Option (Nat × Nat) :=
  if ed.anchor.row ≤ b.height then
    some (ed.anchor.row, min (b.height - ed.anchor.row) size.rows)
  else none

/-- The visible character range of one row (ed.rs
BufEditor.char_range), as start and length; the checked subtraction
width - anchor.col underflows (none) when the anchor is past the end
of the line. -/
def BufEditor.char_range (ed : BufEditor) (b : Buffer) (size : Size) (row : Nat) :
    Option (Nat × Nat) :=
  (b.width row).bind fun w =>
    if ed.anchor.col ≤ w then some (ed.anchor.col, min (w - ed.anchor.col) size.cols)
    else none

/-- The byte-range slice of a line, as Rust str::get over a range:
none (unwrap panic) when the range exceeds the line. -/
def lineSlice (l : List Char) (start len : Nat) : Option (List Char) :=
  if start + len ≤ l.length then some ((l.drop start).take len) else none

/-- Narrowing a usize coordinate to u16, as try_into().unwrap(): none
(panic) when the value does not fit. -/
def toU16 (n : Nat) : Option Nat := if n < 65536 then some n else none

/-- One iteration of the draw loop (the body of the for loop in ed.rs
BufEditor.draw): the visible slice of the line at the given row,
paired with the window-local position handed to Window.put_at. -/
def BufEditor.drawOne (ed : BufEditor) (b : Buffer) (size : Size) (row : Nat) :
    Option (List Char × Position) :=
  (ed.char_range b size row).bind fun c =>
    (b.line row).bind fun l =>
      (lineSlice l c.1 c.2).bind fun s =>
        (toU16 row).bind fun r16 =>
          (toU16 c.1).map fun c16 => (s, Position.mk r16 c16)

/-- The draw loop over len consecutive rows starting at row. -/
def BufEditor.drawGo (ed : BufEditor) (b : Buffer) (size : Size) :
    Nat → Nat → Option (List (List Char × Position))
  | _, 0 => some []
  | row, len + 1 =>
    (ed.drawOne b size row).bind fun w =>
      (ed.drawGo b size (row + 1) len).map fun ws => w :: ws

/-- The sequence of window-local writes draw issues (ed.rs
BufEditor.draw): the loop over line_range of the per-row writes. -/
def BufEditor.draw (ed : BufEditor) (b : Buffer) (size : Size) :
    Option (List (List Char × Position)) :=
  (ed.line_range b size).bind fun r => ed.drawGo b size r.1 r.2

/-- The buffer-shape invariant from the spec: no line contains an
embedded line-break character. -/
def noLineBreaks (b : Buffer) : Prop :=
  ∀ l ∈ b, ∀ c ∈ l, c ≠ '\n'

instance (b : Buffer) : Decidable (noLineBreaks b) := by
  unfold noLineBreaks; infer_instance

/-- The implicit precondition of the draw slice computation: every
row of the visible line range is at least anchor.col wide. -/
def drawPre (b : Buffer) (anchor : BufCursor) (size : Size) : Prop :=
  ∀ row, row < b.height → anchor.row ≤ row → row < anchor.row + size.rows →
    anchor.col ≤ b.widthD row

instance (b : Buffer) (anchor : BufCursor) (size : Size) : Decidable (drawPre b anchor size) := by
  unfold drawPre; infer_instance

/-! Helper lemmas about the embedded operations. -/

theorem Buffer.width_of_eq {b : Buffer} {r : Nat} (h : r = b.height) :
    b.width r = some 0 := by
  unfold Buffer.width
  rw [if_pos h]

theorem Buffer.width_of_gt {b : Buffer} {r : Nat} (h : r > b.height) :
    b.width r = none := by
  unfold Buffer.width
  rw [if_neg (by omega), if_pos h]

theorem Buffer.width_of_le {b : Buffer} {r : Nat} (h : r ≤ b.height) :
    b.width r = some (b.widthD r) := by
  unfold Buffer.widthD
  rcases Nat.lt_or_eq_of_le h with h1 | h1
  · have h2 : r < b.length := h1
    unfold Buffer.width
    rw [if_neg (by omega), if_neg (by omega), List.getElem?_eq_getElem h2]
    rfl
  · rw [Buffer.width_of_eq h1]
    rfl

theorem Buffer.widthD_of_eq {b : Buffer} {r : Nat} (h : r = b.height) :
    b.widthD r = 0 := by
  unfold Buffer.widthD
  rw [Buffer.width_of_eq h]
  rfl

theorem Buffer.widthD_eq_length {b : Buffer} {r : Nat} {l : List Char}
    (h : r < b.height) (hl : b[r]? = some l) : b.widthD r = l.length := by
  unfold Buffer.widthD Buffer.width
  rw [if_neg (by omega), if_neg (by omega), hl]
  rfl

theorem list_set_get_self {α : Type} : ∀ (l : List α) (n : Nat) (h : n < l.length),
    l.set n (l.get ⟨n, h⟩) = l
  | _ :: _, 0, _ => rfl
  | a :: l, n + 1, h => by
    have ih := list_set_get_self l n (by simpa using h)
    simpa using ih

/-! Claim theorems. -/

/-- C5: Buffer.width returns the length of line row when row is below
the height, returns 0 at the virtual one-past-end row (row = height,
for any buffer), and is a fatal contract violation (none) when row
exceeds the height. -/
theorem C5_width_contract (b : Buffer) (row : Nat) :
    (∀ h : row < b.height, b.width row = some (b.get ⟨row, h⟩).length) ∧
    (row = b.height → b.width row = some 0) ∧
    (row > b.height → b.width row = none) := by
  refine ⟨fun h => ?_, fun h => Buffer.width_of_eq h, fun h => Buffer.width_of_gt h⟩
  have h2 : row < b.length := h
  unfold Buffer.width
  rw [if_neg (by omega), if_neg (by omega), List.getElem?_eq_getElem h2]
  simp

/-- Witness for C5 on the concrete buffer of lines ab and c: width 0
is 2, width at the height 2 is 0, width at 3 is the violation. -/
theorem C5_width_contract_witness :
    Buffer.width [['a', 'b'], ['c']] 0 = some 2 ∧
    Buffer.width [['a', 'b'], ['c']] 2 = some 0 ∧
    Buffer.width [['a', 'b'], ['c']] 3 = none := by
  refine ⟨?_, ?_, ?_⟩
  · have h := (C5_width_contract [['a', 'b'], ['c']] 0).1 (by decide)
    simpa using h
  · exact (C5_width_contract [['a', 'b'], ['c']] 2).2.1 (by decide)
  · exact (C5_width_contract [['a', 'b'], ['c']] 3).2.2 (by decide)

/-- C8: Window.put_at delegates to the screen at the absolute
position obtained by adding the window origin to the local position;
for a window claimed at (2,4), local (0,0) is written at absolute
(2,4) and local (2,3) at absolute (4,7). -/
theorem C8_put_at_translates (w : Window) (s : List Char) (p : Position) (sz : Size) :
    w.put_at s p = (s, w.position.add p) ∧
    (Window.mk ⟨2, 4⟩ sz).put_at s ⟨0, 0⟩ = (s, ⟨2, 4⟩) ∧
    (Window.mk ⟨2, 4⟩ sz).put_at s ⟨2, 3⟩ = (s, ⟨4, 7⟩) := by
  refine ⟨rfl, ?_, ?_⟩ <;> (unfold Window.put_at Position.add; norm_num)

/-- C1, evaluated at the failing input: with the two-line buffer of a
and b, anchor at buffer row 1, and a window of 1 row by 2 columns,
draw issues its single write at window-local position (1, 0), not at
(0, 0) = (row - anchor.row, 0) as the specification states. -/
theorem C1_draw_local_position :
    BufEditor.draw ⟨⟨0, 0⟩, ⟨0, 1⟩⟩ [['a'], ['b']] ⟨1, 2⟩ = some [(['b'], ⟨1, 0⟩)] ∧
    Position.mk 1 0 ≠ Position.mk 0 0 := by decide

/-- C3, evaluated at the failing input: the cursor at column 0,
row 1 is valid over the one-line buffer of a (row = height is the
virtual append row), yet Backspace first moves to the end of the
previous line, then hits the merge_next_line_up contract violation
(none), because row + 1 = height is past the last line. -/
theorem C3_backspace_merge_panics :
    BufCursor.Valid [['a']] ⟨0, 1⟩ ∧
    BufCursor.move_to_end_of_prev_line ⟨0, 1⟩ [['a']] = some ⟨1, 0⟩ ∧
    Buffer.merge_next_line_up [['a']] ⟨1, 0⟩ = none ∧
    BufEditor.handle_key ⟨⟨0, 1⟩, ⟨0, 0⟩⟩ [['a']] ⟨1, 1⟩ Key.Backspace = none := by decide

/-- C9, counterexample: insert_at with the line-break character
embeds it in the line, so the mutation does not preserve the
invariant that no line contains a line-break character. -/
theorem C9_insert_newline_embeds :
    noLineBreaks [['a']] ∧
    Buffer.insert_at [['a']] '\n' ⟨0, 0⟩ = some [['\n', 'a']] ∧
    ¬ noLineBreaks [['\n', 'a']] := by decide

/-- C10, counterexample: with the one-line buffer of a, anchor row 2
(past the height) and a 1 by 1 window, every row of the visible line
range satisfies the claimed width precondition vacuously, yet draw is
not well-defined: the checked subtraction height - anchor.row in
line_range underflows (none), so draw performs no write at all
instead of the claimed min(height - anchor.row, rows) writes. -/
theorem C10_pre_insufficient :
    drawPre [['a']] ⟨0, 2⟩ ⟨1, 1⟩ ∧
    BufEditor.draw ⟨⟨0, 0⟩, ⟨0, 2⟩⟩ [['a']] ⟨1, 1⟩ = none := by decide

theorem trim_characterization {buf : Buffer} {col row : Nat} (h : row ≤ buf.height) :
    BufCursor.trim_cursor_to_end_of_line ⟨col, row⟩ buf =
      some ⟨min col (buf.widthD row), row⟩ := by
  unfold BufCursor.trim_cursor_to_end_of_line
  rw [Buffer.width_of_le h]
  dsimp only [Option.map]
  by_cases hc : col > buf.widthD row
  · rw [if_pos hc]
    have e : min col (buf.widthD row) = buf.widthD row := by omega
    rw [e]
  · rw [if_neg hc]
    have e : min col (buf.widthD row) = col := by omega
    rw [e]

theorem valid_of_row_le {buf : Buffer} {col row : Nat} (h : row ≤ buf.height)
    (h2 : col ≤ buf.widthD row) : BufCursor.Valid buf ⟨col, row⟩ := by
  unfold BufCursor.Valid
  dsimp only
  refine ⟨h, h2, fun he => ?_⟩
  have h3 := Buffer.widthD_of_eq he
  omega

theorem move_right_valid {buf : Buffer} {c : BufCursor} (h : c.Valid buf) :
    ∃ c1, c.move_right buf = some c1 ∧ c1.Valid buf := by
  obtain ⟨h1, h2, h3⟩ := h
  unfold BufCursor.move_right
  by_cases hlt : c.row < buf.height
  · rw [if_pos hlt, Buffer.width_of_le (Nat.le_of_lt hlt)]
    dsimp only [Option.map]
    by_cases hcol : c.col < buf.widthD c.row
    · rw [if_pos hcol]
      exact ⟨⟨c.col + 1, c.row⟩, rfl, valid_of_row_le h1 (by omega)⟩
    · rw [if_neg hcol]
      exact ⟨⟨0, c.row + 1⟩, rfl, valid_of_row_le (by omega) (Nat.zero_le _)⟩
  · rw [if_neg hlt]
    exact ⟨c, rfl, h1, h2, h3⟩

theorem move_left_valid {buf : Buffer} {c : BufCursor} (h : c.Valid buf) :
    ∃ c1, c.move_left buf = some c1 ∧ c1.Valid buf := by
  obtain ⟨h1, h2, h3⟩ := h
  unfold BufCursor.move_left
  by_cases hcol : c.col > 0
  · rw [if_pos hcol]
    exact ⟨⟨c.col - 1, c.row⟩, rfl, valid_of_row_le h1 (by omega)⟩
  · rw [if_neg hcol]
    by_cases hrow : c.row > 0
    · rw [if_pos hrow]
      have hle : c.row - 1 ≤ buf.height := by omega
      rw [Buffer.width_of_le hle]
      dsimp only [Option.map]
      exact ⟨⟨buf.widthD (c.row - 1), c.row - 1⟩, rfl,
        valid_of_row_le hle (Nat.le_refl _)⟩
    · rw [if_neg hrow]
      exact ⟨c, rfl, h1, h2, h3⟩

theorem move_up_valid {buf : Buffer} {c : BufCursor} (h : c.Valid buf) :
    ∃ c1, c.move_up buf = some c1 ∧ c1.Valid buf := by
  obtain ⟨h1, h2, h3⟩ := h
  unfold BufCursor.move_up
  by_cases hrow : c.row > 0
  · rw [if_pos hrow]
    have e : ({ c with row := c.row - 1 } : BufCursor) = ⟨c.col, c.row - 1⟩ := rfl
    rw [e, trim_characterization (show c.row - 1 ≤ buf.height by omega)]
    exact ⟨_, rfl, valid_of_row_le (by omega) (by omega)⟩
  · rw [if_neg hrow]
    have e : c = (⟨c.col, c.row⟩ : BufCursor) := rfl
    rw [e, trim_characterization h1]
    exact ⟨_, rfl, valid_of_row_le h1 (by omega)⟩

theorem move_down_valid {buf : Buffer} {c : BufCursor} (h : c.Valid buf) :
    ∃ c1, c.move_down buf = some c1 ∧ c1.Valid buf := by
  obtain ⟨h1, h2, h3⟩ := h
  unfold BufCursor.move_down
  by_cases hrow : c.row < buf.height
  · rw [if_pos hrow]
    have e : ({ c with row := c.row + 1 } : BufCursor) = ⟨c.col, c.row + 1⟩ := rfl
    rw [e, trim_characterization (show c.row + 1 ≤ buf.height by omega)]
    exact ⟨_, rfl, valid_of_row_le (by omega) (by omega)⟩
  · rw [if_neg hrow]
    have e : c = (⟨c.col, c.row⟩ : BufCursor) := rfl
    rw [e, trim_characterization h1]
    exact ⟨_, rfl, valid_of_row_le h1 (by omega)⟩

theorem move_to_start_of_line_valid {buf : Buffer} {c : BufCursor} (h : c.Valid buf) :
    ∃ c1, c.move_to_start_of_line buf = some c1 ∧ c1.Valid buf := by
  obtain ⟨h1, h2, h3⟩ := h
  exact ⟨⟨0, c.row⟩, rfl, valid_of_row_le h1 (Nat.zero_le _)⟩

theorem move_to_end_of_line_valid {buf : Buffer} {c : BufCursor} (h : c.Valid buf) :
    ∃ c1, c.move_to_end_of_line buf = some c1 ∧ c1.Valid buf := by
  obtain ⟨h1, h2, h3⟩ := h
  unfold BufCursor.move_to_end_of_line
  rw [Buffer.width_of_le h1]
  dsimp only [Option.map]
  exact ⟨⟨buf.widthD c.row, c.row⟩, rfl, valid_of_row_le h1 (Nat.le_refl _)⟩

theorem move_to_end_of_prev_line_valid {buf : Buffer} {c : BufCursor} (h : c.Valid buf) :
    ∃ c1, c.move_to_end_of_prev_line buf = some c1 ∧ c1.Valid buf := by
  obtain ⟨c1, hc1, hv1⟩ := move_up_valid h
  obtain ⟨c2, hc2, hv2⟩ := move_to_end_of_line_valid hv1
  refine ⟨c2, ?_, hv2⟩
  unfold BufCursor.move_to_end_of_prev_line
  rw [hc1]
  exact hc2

theorem move_to_start_of_next_line_valid {buf : Buffer} {c : BufCursor} (h : c.Valid buf) :
    ∃ c1, c.move_to_start_of_next_line buf = some c1 ∧ c1.Valid buf := by
  obtain ⟨c1, hc1, hv1⟩ := move_down_valid h
  obtain ⟨c2, hc2, hv2⟩ := move_to_start_of_line_valid hv1
  refine ⟨c2, ?_, hv2⟩
  unfold BufCursor.move_to_start_of_next_line
  rw [hc1]
  exact hc2

/-- C2: over any buffer, each of the eight movement operations maps a
valid cursor to a defined (no width contract violation) and again
valid cursor. -/
theorem C2_movement_preserves_validity (buf : Buffer) (c : BufCursor) (h : c.Valid buf) :
    (∃ c1, c.move_right buf = some c1 ∧ c1.Valid buf) ∧
    (∃ c1, c.move_left buf = some c1 ∧ c1.Valid buf) ∧
    (∃ c1, c.move_up buf = some c1 ∧ c1.Valid buf) ∧
    (∃ c1, c.move_down buf = some c1 ∧ c1.Valid buf) ∧
    (∃ c1, c.move_to_start_of_line buf = some c1 ∧ c1.Valid buf) ∧
    (∃ c1, c.move_to_end_of_line buf = some c1 ∧ c1.Valid buf) ∧
    (∃ c1, c.move_to_end_of_prev_line buf = some c1 ∧ c1.Valid buf) ∧
    (∃ c1, c.move_to_start_of_next_line buf = some c1 ∧ c1.Valid buf) :=
  ⟨move_right_valid h, move_left_valid h, move_up_valid h, move_down_valid h,
   move_to_start_of_line_valid h, move_to_end_of_line_valid h,
   move_to_end_of_prev_line_valid h, move_to_start_of_next_line_valid h⟩

/-- Witness for C2 at the one-line buffer of a with the cursor at the
origin. -/
theorem C2_movement_preserves_validity_witness :
    ∃ c1, BufCursor.move_right ⟨0, 0⟩ [['a']] = some c1 ∧ c1.Valid [['a']] :=
  (C2_movement_preserves_validity [['a']] ⟨0, 0⟩ (by decide)).1

theorem update_anchor_characterization (ed : BufEditor) (size : Size)
    (hr : 1 ≤ size.rows) (hc : 1 ≤ size.cols) :
    ed.update_anchor size = some ⟨ed.editor,
      ⟨if ed.editor.col < ed.anchor.col then ed.editor.col
        else if ed.editor.col > ed.anchor.col + size.cols - 1 then
          ed.editor.col - size.cols + 1
        else ed.anchor.col,
       if ed.editor.row < ed.anchor.row then ed.editor.row
        else if ed.editor.row > ed.anchor.row + size.rows - 1 then
          ed.editor.row - size.rows + 1
        else ed.anchor.row⟩⟩ := by
  simp only [BufEditor.update_anchor]
  split_ifs <;>
    first
      | (exfalso; omega)
      | simp only [Option.some.injEq, BufEditor.mk.injEq, BufCursor.mk.injEq, true_and]

/-- C4: with a window of at least one row and one column,
update_anchor keeps the editor cursor inside the visible rectangle,
leaves the anchor unchanged whenever the cursor was already visible,
and otherwise moves each anchor coordinate by the minimal distance
that restores visibility. -/
theorem C4_update_anchor_minimal_scroll (ed : BufEditor) (size : Size)
    (hr : 1 ≤ size.rows) (hc : 1 ≤ size.cols) :
    ∃ ed1, ed.update_anchor size = some ed1 ∧ ed1.editor = ed.editor ∧
      ed1.anchor.col ≤ ed.editor.col ∧
      ed.editor.col ≤ ed1.anchor.col + size.cols - 1 ∧
      ed1.anchor.row ≤ ed.editor.row ∧
      ed.editor.row ≤ ed1.anchor.row + size.rows - 1 ∧
      ((ed.anchor.col ≤ ed.editor.col ∧ ed.editor.col ≤ ed.anchor.col + size.cols - 1 ∧
        ed.anchor.row ≤ ed.editor.row ∧ ed.editor.row ≤ ed.anchor.row + size.rows - 1) →
        ed1 = ed) ∧
      (∀ x, x ≤ ed.editor.col → ed.editor.col ≤ x + size.cols - 1 →
        Nat.dist ed.anchor.col ed1.anchor.col ≤ Nat.dist ed.anchor.col x) ∧
      (∀ x, x ≤ ed.editor.row → ed.editor.row ≤ x + size.rows - 1 →
        Nat.dist ed.anchor.row ed1.anchor.row ≤ Nat.dist ed.anchor.row x) := by
  refine ⟨_, update_anchor_characterization ed size hr hc, rfl, ?_⟩
  dsimp only
  refine ⟨?_, ?_, ?_, ?_, ?_, ?_, ?_⟩
  · split_ifs <;> omega
  · split_ifs <;> omega
  · split_ifs <;> omega
  · split_ifs <;> omega
  · rintro ⟨v1, v2, v3, v4⟩
    rw [if_neg (by omega), if_neg (by omega), if_neg (by omega), if_neg (by omega)]
  · intro x hx1 hx2
    simp only [Nat.dist]
    split_ifs <;> omega
  · intro x hx1 hx2
    simp only [Nat.dist]
    split_ifs <;> omega

theorem list_getElem_insertIdx_self {α : Type} {l : List α} {n : Nat} {x : α} (h : n ≤ l.length) :
    (l.insertIdx n x)[n]? = some x := by
  have hlen : (l.insertIdx n x).length = l.length + 1 := List.length_insertIdx n l h
  rw [List.getElem?_eq_getElem (show n < (l.insertIdx n x).length by omega)]
  rw [List.getElem_insertIdx_self l x n h]


/-- C7: inserting a character at a valid column of an existing row
grows that row by exactly one, a delete_before at the following
column undoes the insertion exactly, and after inserting at end of
line the character read back at the new last position is the inserted
one. -/
theorem C7_insert_delete_round_trip (b : Buffer) (r c : Nat) (ch : Char)
    (hr : r < b.height) (hc : c ≤ b.widthD r) :
    ∃ b1, b.insert_at ch ⟨c, r⟩ = some b1 ∧
      Buffer.widthD b1 r = b.widthD r + 1 ∧
      Buffer.delete_before b1 ⟨c + 1, r⟩ = some b ∧
      (c = b.widthD r → Buffer.char b1 ⟨Buffer.widthD b1 r - 1, r⟩ = some ch) := by
  have hr2 : r < b.length := hr
  have hl : b[r]? = some (b.get ⟨r, hr2⟩) := by
    rw [List.getElem?_eq_getElem hr2, List.get_eq_getElem]
  generalize hldef : b.get ⟨r, hr2⟩ = l at hl
  have hwl : b.widthD r = l.length := Buffer.widthD_eq_length hr hl
  have hcl : c ≤ l.length := by omega
  have hlen : (l.insertIdx c ch).length = l.length + 1 := List.length_insertIdx c l hcl
  have hins : b.insert_at ch ⟨c, r⟩ = some (b.set r (l.insertIdx c ch)) := by
    unfold Buffer.insert_at
    dsimp only
    rw [if_neg (show ¬ r > b.height by omega),
      Buffer.width_of_le (show r ≤ b.height by omega), Option.some_bind]
    rw [if_neg (show ¬ c > b.widthD r by omega),
      if_neg (show ¬ r = b.height by omega), hl]
    rfl
  have hsh : Buffer.height (b.set r (l.insertIdx c ch)) = b.height := by
    simp only [Buffer.height, List.length_set]
  have hb1r : (b.set r (l.insertIdx c ch))[r]? = some (l.insertIdx c ch) :=
    List.getElem?_set_self hr2
  have hw1 : Buffer.widthD (b.set r (l.insertIdx c ch)) r = l.length + 1 := by
    rw [Buffer.widthD_eq_length (show r < Buffer.height (b.set r (l.insertIdx c ch)) from by
      rw [hsh]; omega) hb1r, hlen]
  refine ⟨_, hins, ?_, ?_, ?_⟩
  · rw [hw1, hwl]
  · unfold Buffer.delete_before
    dsimp only
    rw [if_neg (show ¬ c + 1 = 0 by omega)]
    rw [if_neg (show ¬ r ≥ Buffer.height (b.set r (l.insertIdx c ch)) from by
      rw [hsh]; omega)]
    rw [Buffer.width_of_le (show r ≤ Buffer.height (b.set r (l.insertIdx c ch)) from by
      rw [hsh]; omega), Option.some_bind]
    rw [if_neg (show ¬ c + 1 > Buffer.widthD (b.set r (l.insertIdx c ch)) r from by
      rw [hw1]; omega)]
    rw [hb1r]
    show some ((b.set r (l.insertIdx c ch)).set r
      ((l.insertIdx c ch).eraseIdx (c + 1 - 1))) = some b
    have he : c + 1 - 1 = c := rfl
    rw [he, List.eraseIdx_insertIdx, List.set_set, ← hldef, list_set_get_self]
  · intro hce
    have hcll : c = l.length := by omega
    unfold Buffer.char
    dsimp only
    rw [if_neg (show ¬ r ≥ Buffer.height (b.set r (l.insertIdx c ch)) from by
      rw [hsh]; omega)]
    rw [Buffer.width_of_le (show r ≤ Buffer.height (b.set r (l.insertIdx c ch)) from by
      rw [hsh]; omega), Option.some_bind]
    rw [hw1]
    rw [if_neg (show ¬ l.length + 1 - 1 ≥ l.length + 1 by omega)]
    rw [hb1r, Option.some_bind]
    show (l.insertIdx c ch)[l.length + 1 - 1]? = some ch
    have he : l.length + 1 - 1 = l.length := rfl
    rw [he, hcll, List.insertIdx_length_self, List.getElem?_concat_length]

/-- Witness for C7 on the two-character line ab, inserting x at the
end of the line. -/
theorem C7_insert_delete_round_trip_witness :
    ∃ b1, Buffer.insert_at [['a', 'b']] 'x' ⟨2, 0⟩ = some b1 ∧
      Buffer.widthD b1 0 = Buffer.widthD [['a', 'b']] 0 + 1 ∧
      Buffer.delete_before b1 ⟨3, 0⟩ = some [['a', 'b']] ∧
      (2 = Buffer.widthD [['a', 'b']] 0 →
        Buffer.char b1 ⟨Buffer.widthD b1 0 - 1, 0⟩ = some 'x') :=
  C7_insert_delete_round_trip [['a', 'b']] 0 2 'x' (by decide) (by decide)

/-- C6: breaking a valid row at a valid column and then merging the
next line back up restores the buffer exactly, for any column of the
merge cursor. -/
theorem C6_break_merge_round_trip (b : Buffer) (r c col2 : Nat)
    (hr : r < b.height) (hc : c ≤ b.widthD r) :
    ∃ b1, b.break_line_at ⟨c, r⟩ = some b1 ∧
      Buffer.merge_next_line_up b1 ⟨col2, r⟩ = some b := by
  have hr2 : r < b.length := hr
  have hl : b[r]? = some (b.get ⟨r, hr2⟩) := by
    rw [List.getElem?_eq_getElem hr2, List.get_eq_getElem]
  generalize hldef : b.get ⟨r, hr2⟩ = l at hl
  have hwl : b.widthD r = l.length := Buffer.widthD_eq_length hr hl
  have hcl : c ≤ l.length := by omega
  have hmlen : (b.set r (l.take c)).length = b.length := List.length_set b r (l.take c)
  have hblen : ((b.set r (l.take c)).insertIdx (r + 1) (l.drop c)).length = b.length + 1 := by
    have h2 : ((b.set r (l.take c)).insertIdx (r + 1) (l.drop c)).length =
        (b.set r (l.take c)).length + 1 :=
      List.length_insertIdx (r + 1) (b.set r (l.take c)) (by omega)
    omega
  have hbrk : b.break_line_at ⟨c, r⟩ =
      some ((b.set r (l.take c)).insertIdx (r + 1) (l.drop c)) := by
    unfold Buffer.break_line_at
    dsimp only
    rw [if_neg (show ¬ r > b.height by omega),
      Buffer.width_of_le (show r ≤ b.height by omega), Option.some_bind]
    rw [if_neg (show ¬ c > b.widthD r by omega),
      if_neg (show ¬ r = b.height by omega), hl]
    rfl
  refine ⟨_, hbrk, ?_⟩
  unfold Buffer.merge_next_line_up
  dsimp only
  rw [if_neg (show ¬ r + 1 ≥
      Buffer.height ((b.set r (l.take c)).insertIdx (r + 1) (l.drop c)) from by
    simp only [Buffer.height]; omega)]
  rw [list_getElem_insertIdx_self (show r + 1 ≤ (b.set r (l.take c)).length by omega),
    Option.some_bind]
  rw [List.eraseIdx_insertIdx]
  show ((b.set r (l.take c))[r]?).map
    (fun cl => (b.set r (l.take c)).set r (cl ++ l.drop c)) = some b
  rw [List.getElem?_set_self (show r < b.length from hr2)]
  show some ((b.set r (l.take c)).set r (l.take c ++ l.drop c)) = some b
  rw [List.take_append_drop, List.set_set, ← hldef, list_set_get_self]

/-- Witness for C6 on the single line ab, broken after its first
character and merged back. -/
theorem C6_break_merge_round_trip_witness :
    ∃ b1, Buffer.break_line_at [['a', 'b']] ⟨1, 0⟩ = some b1 ∧
      Buffer.merge_next_line_up b1 ⟨5, 0⟩ = some [['a', 'b']] :=
  C6_break_merge_round_trip [['a', 'b']] 0 1 5 (by decide) (by decide)

/-- Witness for C4: cursor at column 5 past a 3 by 2 window anchored
at the origin forces a horizontal scroll that keeps the cursor at the
right edge. -/
theorem C4_update_anchor_minimal_scroll_witness :
    ∃ ed1, BufEditor.update_anchor ⟨⟨5, 0⟩, ⟨0, 0⟩⟩ ⟨3, 2⟩ = some ed1 ∧
      ed1.anchor.col ≤ 5 ∧ 5 ≤ ed1.anchor.col + 2 - 1 := by
  obtain ⟨ed1, h1, _, h2, h3, _⟩ :=
    C4_update_anchor_minimal_scroll ⟨⟨5, 0⟩, ⟨0, 0⟩⟩ ⟨3, 2⟩ (by decide) (by decide)
  exact ⟨ed1, h1, h2, h3⟩

theorem mem_insertIdx_general {α : Type} {l : List α} {n : Nat} {x a : α}
    (h : a ∈ l.insertIdx n x) : a = x ∨ a ∈ l := by
  by_cases hn : n ≤ l.length
  · exact (List.mem_insertIdx hn).mp h
  · right
    rw [List.insertIdx_of_length_lt l x n (by omega)] at h
    exact h

theorem noLineBreaks_insert_at {b b1 : Buffer} {ch : Char} {cur : BufCursor}
    (hb : noLineBreaks b) (hch : ch ≠ '\n')
    (h : b.insert_at ch cur = some b1) : noLineBreaks b1 := by
  unfold Buffer.insert_at at h
  split at h
  · exact absurd h (by simp)
  rw [Option.bind_eq_some] at h
  obtain ⟨w, hw, h⟩ := h
  split at h
  · exact absurd h (by simp)
  simp only [] at h
  rw [Option.map_eq_some'] at h
  obtain ⟨l, hl, h⟩ := h
  have hbase : noLineBreaks (if cur.row = b.height then b ++ [[]] else b) := by
    split
    · intro l2 hl2 c2 hc2
      rcases List.mem_append.mp hl2 with h2 | h2
      · exact hb l2 h2 c2 hc2
      · simp only [List.mem_singleton] at h2
        subst h2
        exact absurd hc2 (List.not_mem_nil c2)
    · exact hb
  have hlmem : l ∈ (if cur.row = b.height then b ++ [[]] else b) := by
    exact List.getElem?_mem hl
  subst h
  intro l2 hl2 c2 hc2
  rcases List.mem_or_eq_of_mem_set hl2 with h2 | h2
  · exact hbase l2 h2 c2 hc2
  · subst h2
    rcases mem_insertIdx_general hc2 with h3 | h3
    · subst h3
      exact hch
    · exact hbase l hlmem c2 h3

theorem noLineBreaks_delete_before {b b1 : Buffer} {cur : BufCursor}
    (hb : noLineBreaks b) (h : b.delete_before cur = some b1) : noLineBreaks b1 := by
  unfold Buffer.delete_before at h
  split at h
  · exact absurd h (by simp)
  split at h
  · exact absurd h (by simp)
  rw [Option.bind_eq_some] at h
  obtain ⟨w, hw, h⟩ := h
  split at h
  · exact absurd h (by simp)
  rw [Option.map_eq_some'] at h
  obtain ⟨l, hl, h⟩ := h
  subst h
  intro l2 hl2 c2 hc2
  rcases List.mem_or_eq_of_mem_set hl2 with h2 | h2
  · exact hb l2 h2 c2 hc2
  · subst h2
    exact hb l (List.getElem?_mem hl) c2 (List.mem_of_mem_eraseIdx hc2)

theorem noLineBreaks_merge_next_line_up {b b1 : Buffer} {cur : BufCursor}
    (hb : noLineBreaks b) (h : b.merge_next_line_up cur = some b1) : noLineBreaks b1 := by
  unfold Buffer.merge_next_line_up at h
  split at h
  · exact absurd h (by simp)
  rw [Option.bind_eq_some] at h
  obtain ⟨l, hl, h⟩ := h
  simp only [] at h
  rw [Option.map_eq_some'] at h
  obtain ⟨cl, hcl, h⟩ := h
  subst h
  intro l2 hl2 c2 hc2
  rcases List.mem_or_eq_of_mem_set hl2 with h2 | h2
  · exact hb l2 (List.mem_of_mem_eraseIdx h2) c2 hc2
  · subst h2
    rcases List.mem_append.mp hc2 with h3 | h3
    · exact hb cl (List.mem_of_mem_eraseIdx (List.getElem?_mem hcl)) c2 h3
    · exact hb l (List.getElem?_mem hl) c2 h3

theorem noLineBreaks_break_line_at {b b1 : Buffer} {cur : BufCursor}
    (hb : noLineBreaks b) (h : b.break_line_at cur = some b1) : noLineBreaks b1 := by
  unfold Buffer.break_line_at at h
  split at h
  · exact absurd h (by simp)
  rw [Option.bind_eq_some] at h
  obtain ⟨w, hw, h⟩ := h
  split at h
  · exact absurd h (by simp)
  split at h
  · rw [Option.some_inj] at h
    subst h
    intro l2 hl2 c2 hc2
    rcases List.mem_append.mp hl2 with h2 | h2
    · exact hb l2 h2 c2 hc2
    · simp only [List.mem_singleton] at h2
      subst h2
      exact absurd hc2 (List.not_mem_nil c2)
  rw [Option.map_eq_some'] at h
  obtain ⟨l, hl, h⟩ := h
  subst h
  intro l2 hl2 c2 hc2
  rcases mem_insertIdx_general hl2 with h2 | h2
  · subst h2
    exact hb l (List.getElem?_mem hl) c2 (List.mem_of_mem_drop hc2)
  · rcases List.mem_or_eq_of_mem_set h2 with h3 | h3
    · exact hb l2 h3 c2 hc2
    · subst h3
      exact hb l (List.getElem?_mem hl) c2 (List.mem_of_mem_take hc2)

theorem noLineBreaks_handle_key {ed : BufEditor} {b : Buffer} {size : Size} {key : Key}
    {ed1 : BufEditor} {b1 : Buffer} (hb : noLineBreaks b)
    (h : BufEditor.handle_key ed b size key = some (ed1, b1)) : noLineBreaks b1 := by
  unfold BufEditor.handle_key at h
  simp only [] at h
  rw [Option.bind_eq_some] at h
  obtain ⟨s, hs, h2⟩ := h
  rw [Option.map_eq_some'] at h2
  obtain ⟨ed2, _, heq⟩ := h2
  have hb1 : s.2 = b1 := congrArg Prod.snd heq
  rw [← hb1]
  cases key with
  | Left =>
    simp only [] at hs
    rw [Option.map_eq_some'] at hs
    obtain ⟨e, _, hseq⟩ := hs
    subst hseq
    exact hb
  | Right =>
    simp only [] at hs
    rw [Option.map_eq_some'] at hs
    obtain ⟨e, _, hseq⟩ := hs
    subst hseq
    exact hb
  | Up =>
    simp only [] at hs
    rw [Option.map_eq_some'] at hs
    obtain ⟨e, _, hseq⟩ := hs
    subst hseq
    exact hb
  | Down =>
    simp only [] at hs
    rw [Option.map_eq_some'] at hs
    obtain ⟨e, _, hseq⟩ := hs
    subst hseq
    exact hb
  | Char ch =>
    simp only [] at hs
    by_cases hch : ch = '\n'
    · rw [if_pos hch, Option.bind_eq_some] at hs
      obtain ⟨b2, hbrk, hs2⟩ := hs
      rw [Option.map_eq_some'] at hs2
      obtain ⟨e, _, hseq⟩ := hs2
      subst hseq
      exact noLineBreaks_break_line_at hb hbrk
    · rw [if_neg hch, Option.bind_eq_some] at hs
      obtain ⟨b2, hins, hs2⟩ := hs
      rw [Option.map_eq_some'] at hs2
      obtain ⟨e, _, hseq⟩ := hs2
      subst hseq
      exact noLineBreaks_insert_at hb hch hins
  | Backspace =>
    simp only [] at hs
    by_cases h1 : ed.editor.col > 0
    · rw [if_pos h1, Option.bind_eq_some] at hs
      obtain ⟨b2, hdel, hs2⟩ := hs
      rw [Option.map_eq_some'] at hs2
      obtain ⟨e, _, hseq⟩ := hs2
      subst hseq
      exact noLineBreaks_delete_before hb hdel
    · rw [if_neg h1] at hs
      by_cases h2 : ed.editor.row > 0
      · rw [if_pos h2, Option.bind_eq_some] at hs
        obtain ⟨e, _, hs2⟩ := hs
        rw [Option.map_eq_some'] at hs2
        obtain ⟨b2, hmrg, hseq⟩ := hs2
        subst hseq
        exact noLineBreaks_merge_next_line_up hb hmrg
      · rw [if_neg h2, Option.some_inj] at hs
        subst hs
        exact hb
  | Other =>
    simp only [Option.some_inj] at hs
    subst hs
    exact hb

/-- C9 amended: over a buffer whose lines contain no line-break
character, insert_at with any non-line-break character, and
delete_before, merge_next_line_up, break_line_at, and handle_key on
any key (including Char of a line break, which is routed to
break_line_at) preserve the invariant that no line contains a
line-break character. -/
theorem C9_no_line_break_invariant (b : Buffer) (hb : noLineBreaks b) :
    (∀ ch cur b1, ch ≠ '\n' → b.insert_at ch cur = some b1 → noLineBreaks b1) ∧
    (∀ cur b1, b.delete_before cur = some b1 → noLineBreaks b1) ∧
    (∀ cur b1, b.merge_next_line_up cur = some b1 → noLineBreaks b1) ∧
    (∀ cur b1, b.break_line_at cur = some b1 → noLineBreaks b1) ∧
    (∀ ed size key ed1 b1, BufEditor.handle_key ed b size key = some (ed1, b1) →
      noLineBreaks b1) :=
  ⟨fun _ _ _ hch h => noLineBreaks_insert_at hb hch h,
   fun _ _ h => noLineBreaks_delete_before hb h,
   fun _ _ h => noLineBreaks_merge_next_line_up hb h,
   fun _ _ h => noLineBreaks_break_line_at hb h,
   fun _ _ _ _ _ h => noLineBreaks_handle_key hb h⟩

/-- Witness for C9: pressing Enter (Char of a line break) on the
one-line buffer of a keeps the buffer free of embedded line breaks. -/
theorem C9_no_line_break_invariant_witness : noLineBreaks [[], ['a']] :=
  (C9_no_line_break_invariant [['a']] (by decide)).2.2.2.2
    ⟨⟨0, 0⟩, ⟨0, 0⟩⟩ ⟨2, 2⟩ (Key.Char '\n') ⟨⟨0, 1⟩, ⟨0, 0⟩⟩ [[], ['a']] (by decide)

theorem char_range_spec {b : Buffer} {anchor e : BufCursor} {size : Size} {row : Nat}
    (hrow : row ≤ b.height) (hpre : anchor.col ≤ b.widthD row) :
    BufEditor.char_range ⟨e, anchor⟩ b size row =
      some (anchor.col, min (b.widthD row - anchor.col) size.cols) := by
  unfold BufEditor.char_range
  dsimp only
  rw [Buffer.width_of_le hrow, Option.some_bind, if_pos hpre]

theorem drawOne_some (b : Buffer) (anchor e : BufCursor) (size : Size) (row : Nat)
    (hrow : row < b.height) (hpre : anchor.col ≤ b.widthD row)
    (hr16 : row < 65536) (hc16 : anchor.col < 65536) :
    ∃ s, BufEditor.drawOne ⟨e, anchor⟩ b size row = some (s, Position.mk row anchor.col) ∧
      s.length ≤ size.cols := by
  have hr2 : row < b.length := hrow
  have hl : b[row]? = some (b.get ⟨row, hr2⟩) := by
    rw [List.getElem?_eq_getElem hr2, List.get_eq_getElem]
  generalize hldef : b.get ⟨row, hr2⟩ = l at hl
  have hwl : b.widthD row = l.length := Buffer.widthD_eq_length hrow hl
  unfold BufEditor.drawOne
  rw [char_range_spec (Nat.le_of_lt hrow) hpre, Option.some_bind]
  dsimp only
  unfold Buffer.line
  rw [hl, Option.some_bind]
  unfold lineSlice
  rw [if_pos (show anchor.col + min (b.widthD row - anchor.col) size.cols ≤ l.length by
    omega), Option.some_bind]
  unfold toU16
  rw [if_pos hr16, Option.some_bind, if_pos hc16]
  refine ⟨_, rfl, ?_⟩
  have ht : ((l.drop anchor.col).take (min (b.widthD row - anchor.col) size.cols)).length ≤
      min (b.widthD row - anchor.col) size.cols := List.length_take_le _ _
  omega

theorem drawOne_none_of_wide {b : Buffer} {anchor e : BufCursor} {size : Size} {row : Nat}
    (hrow : row ≤ b.height) (hbad : ¬ anchor.col ≤ b.widthD row) :
    BufEditor.drawOne ⟨e, anchor⟩ b size row = none := by
  unfold BufEditor.drawOne BufEditor.char_range
  dsimp only
  rw [Buffer.width_of_le hrow, Option.some_bind, if_neg hbad]
  rfl

theorem drawGo_some : ∀ (b : Buffer) (anchor e : BufCursor) (size : Size)
    (len start : Nat), (∀ i, i < len → start + i < b.height) →
      (∀ i, i < len → anchor.col ≤ b.widthD (start + i)) →
      (∀ i, i < len → start + i < 65536) → anchor.col < 65536 →
      ∃ ws, BufEditor.drawGo ⟨e, anchor⟩ b size start len = some ws ∧
        ws.length = len ∧ ∀ p ∈ ws, p.1.length ≤ size.cols
  | _, _, _, _, 0, _, _, _, _, _ =>
    ⟨[], rfl, rfl, fun p hp => absurd hp (List.not_mem_nil p)⟩
  | b, anchor, e, size, len + 1, start, h1, h2, h3, hc => by
    obtain ⟨s, hone, hslen⟩ := drawOne_some b anchor e size start
      (by have := h1 0 (by omega); omega)
      (by have := h2 0 (by omega); simpa using this)
      (by have := h3 0 (by omega); omega) hc
    obtain ⟨ws, hgo, hwslen, hwsall⟩ := drawGo_some b anchor e size len (start + 1)
      (fun i hi => by
        have := h1 (i + 1) (by omega)
        omega)
      (fun i hi => by
        have := h2 (i + 1) (by omega)
        rw [show start + 1 + i = start + (i + 1) from by omega]
        exact this)
      (fun i hi => by
        have := h3 (i + 1) (by omega)
        omega) hc
    refine ⟨(s, Position.mk start anchor.col) :: ws, ?_, ?_, ?_⟩
    · show (BufEditor.drawOne ⟨e, anchor⟩ b size start).bind _ = _
      rw [hone, Option.some_bind, hgo]
      rfl
    · simp only [List.length_cons, hwslen]
    · intro p hp
      rcases List.mem_cons.mp hp with h | h
      · rw [h]
        exact hslen
      · exact hwsall p h

theorem drawGo_none : ∀ (b : Buffer) (anchor e : BufCursor) (size : Size)
    (len start i : Nat), i < len →
      BufEditor.drawOne ⟨e, anchor⟩ b size (start + i) = none →
      BufEditor.drawGo ⟨e, anchor⟩ b size start len = none
  | _, _, _, _, 0, _, i, hi, _ => absurd hi (by omega)
  | b, anchor, e, size, len + 1, start, 0, _, hone => by
    show (BufEditor.drawOne ⟨e, anchor⟩ b size start).bind _ = none
    rw [Nat.add_zero] at hone
    rw [hone]
    rfl
  | b, anchor, e, size, len + 1, start, i + 1, hi, hone => by
    show (BufEditor.drawOne ⟨e, anchor⟩ b size start).bind _ = none
    cases h : BufEditor.drawOne ⟨e, anchor⟩ b size start with
    | none => rfl
    | some w =>
      rw [Option.some_bind]
      rw [drawGo_none b anchor e size len (start + 1) i (by omega)
        (by rw [show start + 1 + i = start + (i + 1) from by omega]; exact hone)]
      rfl

/-- C10 amended: the draw slice computation is well-defined only
under the precondition that every row of the visible line range is at
least anchor.col wide (otherwise the checked subtraction in
char_range underflows and draw is none), and, provided additionally
that anchor.row does not exceed the height and the written window
coordinates fit in sixteen bits, no subtraction underflows, each
visible range lies within its line, and draw performs exactly
min(height - anchor.row, rows) writes, each of a string of at most
cols characters. -/
theorem C10_draw_writes (b : Buffer) (anchor e : BufCursor) (size : Size) :
    (¬ drawPre b anchor size → BufEditor.draw ⟨e, anchor⟩ b size = none) ∧
    (anchor.row ≤ b.height → drawPre b anchor size →
      min b.height (anchor.row + size.rows) ≤ 65536 → anchor.col < 65536 →
      (∀ row, row < b.height → anchor.row ≤ row → row < anchor.row + size.rows →
        ∃ len, BufEditor.char_range ⟨e, anchor⟩ b size row = some (anchor.col, len) ∧
          anchor.col + len ≤ b.widthD row ∧ len ≤ size.cols) ∧
      ∃ ws, BufEditor.draw ⟨e, anchor⟩ b size = some ws ∧
        ws.length = min (b.height - anchor.row) size.rows ∧
        ∀ p ∈ ws, p.1.length ≤ size.cols) := by
  constructor
  · intro hnp
    unfold drawPre at hnp
    push_neg at hnp
    obtain ⟨row, h1, h2, h3, h4⟩ := hnp
    unfold BufEditor.draw BufEditor.line_range
    dsimp only
    rw [if_pos (show anchor.row ≤ b.height by omega), Option.some_bind]
    dsimp only
    exact drawGo_none b anchor e size (min (b.height - anchor.row) size.rows) anchor.row
      (row - anchor.row) (by omega)
      (by rw [show anchor.row + (row - anchor.row) = row from by omega]
          exact drawOne_none_of_wide (by omega) (by omega))
  · intro hle hpre hfit hcfit
    constructor
    · intro row hr1 hr2 hr3
      refine ⟨min (b.widthD row - anchor.col) size.cols,
        char_range_spec (by omega) (hpre row hr1 hr2 hr3), ?_, ?_⟩
      · have := hpre row hr1 hr2 hr3
        omega
      · omega
    · obtain ⟨ws, hgo, hlen, hall⟩ := drawGo_some b anchor e size
        (min (b.height - anchor.row) size.rows) anchor.row
        (fun i hi => by omega)
        (fun i hi => hpre (anchor.row + i) (by omega) (by omega) (by omega))
        (fun i hi => by omega) hcfit
      refine ⟨ws, ?_, hlen, hall⟩
      unfold BufEditor.draw BufEditor.line_range
      dsimp only
      rw [if_pos hle, Option.some_bind]
      exact hgo

/-- Witness for C10 on the buffer of lines abc and d with anchor
column 1 and a 2 by 1 window: two writes, each of at most one
character. -/
theorem C10_draw_writes_witness :
    ∃ ws, BufEditor.draw ⟨⟨0, 0⟩, ⟨1, 0⟩⟩ [['a', 'b', 'c'], ['d']] ⟨2, 1⟩ = some ws ∧
      ws.length = min (2 - 0) 2 ∧ ∀ p ∈ ws, p.1.length ≤ 1 := by
  have h := (C10_draw_writes [['a', 'b', 'c'], ['d']] ⟨1, 0⟩ ⟨0, 0⟩ ⟨2, 1⟩).2
    (by decide) (by decide) (by decide) (by decide)
  exact h.2
